import Mathlib

/-!
Shallow embedding of the `tt` crate (src/tree.rs, src/focus.rs): a generic
tree with ordered children and a cursor ("focus") holding a tree together
with a path of child indices.

Machine-integer conventions (64-bit target, release-mode semantics):
`usize` values are modelled as `Nat`; `i32` values as `Int` together with
explicit two's-complement wrapping (`wrap32`) wherever Rust performs an
`as` cast or an arithmetic operation on `i32` (release builds wrap on
overflow).  Fallible spots of the Rust code (`Option` returns, and every
`unwrap`, which panics when its argument is `None`) are modelled by
`Option`-returning Lean functions, `none` standing for the panic / absent
result.
-/

namespace TT

/-- Two's-complement wrap of an integer into the `i32` range
`[-2^31, 2^31)`; applied wherever Rust release-mode `i32` arithmetic or an
`as i32` cast occurs. -/
def wrap32 (z : Int) : Int := (z + 2 ^ 31) % 2 ^ 32 - 2 ^ 31

/-- Rust `as usize` cast of an `i32` value on a 64-bit target:
sign-extend, then reinterpret as an unsigned 64-bit value. -/
def usizeOfI32 (z : Int) : Nat := (z % 2 ^ 64).toNat

/-- Rust `Tree<T>` from src/tree.rs: a label plus an ordered list of children. -/
structure Tree (T : Type) where
  label : T
  children : List (Tree T)

/-- Rust `Tree::new(label)`: a leaf with the given label. -/
def Tree.new {T : Type} (label : T) : Tree T :=
  { label := label, children := [] }

/-- Rust `Tree::children(&self) -> usize`: number of direct children.  (Named
`childrenCount` because `children` is already the field name.) -/
def Tree.childrenCount {T : Type} (t : Tree T) : Nat := t.children.length

/-- Rust `Tree::child_at(&self, i)`: `self.children.get(i)`. -/
def Tree.child_at {T : Type} (t : Tree T) (i : Nat) : Option (Tree T) :=
  t.children[i]?

/-- Rust `Tree::child_at_mut(&mut self, i)`: `self.children.get_mut(i)`; the
lookup succeeds under exactly the same condition as `child_at`, so the
addressed subtree is the same one. -/
def Tree.child_at_mut {T : Type} (t : Tree T) (i : Nat) : Option (Tree T) :=
  t.children[i]?

/-- Rust `Tree::create_subtree(&mut self, label)`: push a fresh leaf onto
`children`. -/
def Tree.create_subtree {T : Type} (t : Tree T) (label : T) : Tree T :=
  { t with children := t.children ++ [Tree.new label] }

/-- Rust `Jump` from src/focus.rs.  The lateral offset is a Rust `i32`,
modelled as an `Int` (in-range hypotheses are added where the value of the
offset matters). -/
inductive Jump where
  | up : Jump
  | down : Jump
  | lateral : Int → Jump

/-- Rust `Path = Vec<usize>`. -/
def Path : Type := List Nat

/-- Rust `Focus<T>` from src/focus.rs: an owned tree plus a path into it. -/
structure Focus (T : Type) where
  tree : Tree T
  path : List Nat

/-- The loop of `Focus::at_path`: repeatedly follow `child_at`, `none` as
soon as a lookup fails. -/
def atPath {T : Type} (t : Tree T) : List Nat → Option (Tree T)
  | [] => some t
  | i :: rest =>
    match t.child_at i with
    | some child => atPath child rest
    | none => none

/-- Rust `Focus::at_path(&self, path)`: walk `path` from `self.tree`. -/
def Focus.at_path {T : Type} (f : Focus T) (path : List Nat) : Option (Tree T) :=
  atPath f.tree path

/-- Rust `Focus::from(tree, path)`: build the candidate focus (empty path when
`None` is supplied) and validate its path; `none` when validation fails. -/
def Focus.fromTree {T : Type} (tree : Tree T) (path : Option (List Nat)) :
    Option (Focus T) :=
  let focus : Focus T :=
    { tree := tree
      path :=
        match path with
        | some p => p
        | none => [] }
  match focus.at_path focus.path with
  | some _ => some focus
  | none => none

/-- Rust `Focus::new(label)`: `Focus::from(Tree::new(label), None).unwrap()`.
The unwrap always succeeds (the empty path is valid in every tree), so the
result is a plain `Focus`; `focus_new_eq_fromTree` below checks this
against `Focus.fromTree`. -/
def Focus.new {T : Type} (label : T) : Focus T :=
  { tree := Tree.new label, path := [] }

/-- Rust `Focus::focused(&self)`: `self.at_path(&self.path).unwrap()`; `none`
models the panic on an invalid path. -/
def Focus.focused {T : Type} (f : Focus T) : Option (Tree T) :=
  f.at_path f.path

/-- The in-place update performed through `Focus::focused_mut`: walk
`path` via `child_at_mut` and apply `g` to the addressed node, rebuilding
the spine; `none` models the `unwrap` panic when a lookup fails. -/
def updateAt {T : Type} (t : Tree T) (path : List Nat) (g : Tree T → Tree T) :
    Option (Tree T) :=
  match path with
  | [] => some (g t)
  | i :: rest =>
    match t.children[i]? with
    | none => none
    | some c =>
      match updateAt c rest g with
      | none => none
      | some c' => some { t with children := t.children.set i c' }

/-- Rust `Focus::jump(&mut self, jump)`.  Arm order and guards follow the Rust
`match`: `Up` always pops (popping an empty `Vec` is a no-op); `Down`
evaluates `self.focused()` in its guard (panic = `none` on an invalid
path) and pushes `0` only when the focused node has children; `Lateral(x)`
fires only on a non-empty path, pops the last index `o`, reads the (now
focused) parent's child count, and pushes the clamp of the wrapped 32-bit
sum `o + x`, every `i32` step wrapped by `wrap32`. -/
def Focus.jump {T : Type} (f : Focus T) (j : Jump) : Option (Focus T) :=
  match j with
  | .up => some { f with path := f.path.dropLast }
  | .down =>
    match f.focused with
    | none => none
    | some foc =>
      if foc.childrenCount > 0 then some { f with path := f.path ++ [0] }
      else some f
  | .lateral x =>
    if f.path.length > 0 then
      let o : Nat := f.path.getLast!
      let p' : List Nat := f.path.dropLast
      match atPath f.tree p' with
      | none => none
      | some parent =>
        let ub : Int := wrap32 (parent.childrenCount : Int)
        let o32 : Int := wrap32 (o : Int)
        let s : Int := wrap32 (o32 + x)
        let n : Int := if s < 0 then 0 else if s ≥ ub then wrap32 (ub - 1) else s
        some { f with path := p' ++ [usizeOfI32 n] }
    else some f

/-- Rust `Focus::create_subtree(&mut self, label)`: append a leaf at the
focused node (through `focused_mut`, panic = `none`), then push the new
node's index `self.focused().children() - 1`, read off the updated
tree. -/
def Focus.create_subtree {T : Type} (f : Focus T) (label : T) : Option (Focus T) :=
  match updateAt f.tree f.path (fun st => st.create_subtree label) with
  | none => none
  | some t' =>
    match atPath t' f.path with
    | none => none
    | some foc => some { tree := t', path := f.path ++ [foc.childrenCount - 1] }

/-- The fold inside `Focus::labels`: walks the path indices, collecting
the label of `at_path(acc)` before extending `acc` by the next index;
`none` models the `unwrap` panic. -/
def labelsFold {T : Type} (f : Focus T) :
    List Nat → List T × List Nat → Option (List T × List Nat)
  | [], st => some st
  | x :: rest, (labels, acc) =>
    match f.at_path acc with
    | none => none
    | some t => labelsFold f rest (labels ++ [t.label], acc ++ [x])

/-- Rust `Focus::labels(&self)`: the fold over the path, then push the focused
node's label. -/
def Focus.labels {T : Type} (f : Focus T) : Option (List T) :=
  match labelsFold f f.path ([], []) with
  | none => none
  | some (labels, _) =>
    match f.focused with
    | none => none
    | some foc => some (labels ++ [foc.label])

/-- The path-validity invariant of the spec: the stored path addresses an
existing node of the stored tree. -/
def Focus.Valid {T : Type} (f : Focus T) : Prop :=
  (f.at_path f.path).isSome = true

instance {T : Type} (f : Focus T) : Decidable f.Valid := by
  unfold Focus.Valid; infer_instance

/-- One public mutating operation on a focus, for stating properties of
arbitrary call sequences. -/
inductive Op (T : Type) where
  | jmp : Jump → Op T
  | cst : T → Op T

/-- Apply one operation. -/
def applyOp {T : Type} (f : Focus T) : Op T → Option (Focus T)
  | .jmp j => f.jump j
  | .cst label => f.create_subtree label

/-- Apply a sequence of operations, `none` as soon as one panics. -/
def applyOps {T : Type} (f : Focus T) : List (Op T) → Option (Focus T)
  | [] => some f
  | op :: ops =>
    match applyOp f op with
    | none => none
    | some f' => applyOps f' ops

/-- Spec-side description of `labels()` (§4.2 of the spec): the ordered
sequence of labels of the nodes visited when walking `path` from the root
down to and including the focused node.  Used to compare `Focus.labels`
against the spec's words. -/
def specLabels {T : Type} (t : Tree T) : List Nat → Option (List T)
  | [] => some [t.label]
  | i :: rest =>
    (t.children[i]?).bind fun c => (specLabels c rest).map fun ls => t.label :: ls

/-- Every node of the tree has at most `2 ^ 31 - m` children, i.e. room
for `m` more insertions before a children count can reach a value whose
`usize as i32` cast in `Focus::jump` misbehaves. -/
def Tree.countsLE {T : Type} (t : Tree T) (m : Nat) : Bool :=
  decide (t.childrenCount + m ≤ 2 ^ 31) &&
    t.children.attach.all fun c => c.1.countsLE m
termination_by sizeOf t
decreasing_by
  cases t
  rename_i l cs
  have h1 := List.sizeOf_lt_of_mem c.2
  dsimp only at h1
  simp only [Tree.mk.sizeOf_spec]
  omega

/-- The concrete wide tree used to exhibit the `usize as i32` wrap in
`Focus::jump`: a root with `2^32` leaf children. -/
def wideTree : Tree Nat :=
  { label := 0, children := List.replicate (2 ^ 32) (Tree.new 0) }

/-! ### Structural (de)serialization

Modelled from the spec: the serde-derived `Serialize`/`Deserialize`
implementations for `Tree<T>` and `Focus<T>` are generated library code
that is not part of src/; §6 of the spec describes the encoding as a
generic structured representation — a record with named fields, `label`
and `children` (an ordered list of the same structure recursively) for
`Tree`, `tree` and `path` (an ordered list of non-negative integers) for
`Focus`, preserving child order and path order exactly. -/

/-- A generic structured value: a label payload, a non-negative integer,
an ordered list, or a record of named fields. -/
inductive SVal (T : Type) where
  | lab : T → SVal T
  | num : Nat → SVal T
  | list : List (SVal T) → SVal T
  | record : List (String × SVal T) → SVal T

mutual

/-- Modelled from the spec (§6): serialize a tree as a record with the
fields `label` and `children`, children in order. -/
def serializeTree {T : Type} : Tree T → SVal T
  | { label := l, children := cs } =>
    .record [("label", .lab l), ("children", .list (serializeTreeList cs))]

/-- Serialize a list of trees in order. -/
def serializeTreeList {T : Type} : List (Tree T) → List (SVal T)
  | [] => []
  | t :: ts => serializeTree t :: serializeTreeList ts

end

mutual

/-- Modelled from the spec (§6): parse back exactly the shape produced by
`serializeTree`; absent result on any other shape. -/
def deserializeTree {T : Type} : SVal T → Option (Tree T)
  | .record [("label", .lab l), ("children", .list cs)] =>
    match deserializeTreeList cs with
    | some ts => some { label := l, children := ts }
    | none => none
  | _ => none

/-- Parse back a list of trees in order. -/
def deserializeTreeList {T : Type} : List (SVal T) → Option (List (Tree T))
  | [] => some []
  | v :: vs =>
    match deserializeTree v, deserializeTreeList vs with
    | some t, some ts => some (t :: ts)
    | _, _ => none

end

/-- Modelled from the spec (§6): serialize a focus as a record with the
fields `tree` and `path`, the path as a list of non-negative integers in
order. -/
def serializeFocus {T : Type} (f : Focus T) : SVal T :=
  .record [("tree", serializeTree f.tree), ("path", .list (f.path.map .num))]

/-- Parse back a path: a list of `num` values. -/
def deserializePath {T : Type} : List (SVal T) → Option (List Nat)
  | [] => some []
  | .num n :: vs =>
    match deserializePath vs with
    | some p => some (n :: p)
    | none => none
  | _ => none

/-- Modelled from the spec (§6): parse back exactly the shape produced by
`serializeFocus`. -/
def deserializeFocus {T : Type} : SVal T → Option (Focus T)
  | .record [("tree", vt), ("path", .list pvs)] =>
    match deserializeTree vt, deserializePath pvs with
    | some t, some p => some { tree := t, path := p }
    | _, _ => none
  | _ => none

/-! ### Lemmas about path walking and in-place update -/

theorem Tree.child_at_eq {T : Type} (t : Tree T) (i : Nat) :
    t.child_at i = t.children[i]? := rfl

theorem atPath_nil {T : Type} (t : Tree T) : atPath t [] = some t := rfl

theorem atPath_cons {T : Type} (t : Tree T) (i : Nat) (rest : List Nat) :
    atPath t (i :: rest) = (t.children[i]?).bind fun c => atPath c rest := by
  simp only [atPath, Tree.child_at]
  cases t.children[i]? <;> rfl

theorem updateAt_nil {T : Type} (t : Tree T) (g : Tree T → Tree T) :
    updateAt t [] g = some (g t) := rfl

theorem updateAt_cons {T : Type} (t : Tree T) (i : Nat) (rest : List Nat)
    (g : Tree T → Tree T) :
    updateAt t (i :: rest) g = (t.children[i]?).bind fun c =>
      (updateAt c rest g).map fun c' => { t with children := t.children.set i c' } := by
  simp only [updateAt]
  cases t.children[i]? with
  | none => rfl
  | some c =>
    simp only [Option.some_bind]
    cases updateAt c rest g <;> rfl

theorem atPath_append {T : Type} (t : Tree T) (p q : List Nat) :
    atPath t (p ++ q) = (atPath t p).bind fun u => atPath u q := by
  induction p generalizing t with
  | nil => simp [atPath_nil]
  | cons i rest ih =>
    rw [List.cons_append, atPath_cons, atPath_cons]
    cases t.children[i]? with
    | none => rfl
    | some c => simp [ih]

theorem atPath_prefix_isSome {T : Type} {t : Tree T} {p q : List Nat}
    (h : (atPath t (p ++ q)).isSome = true) : (atPath t p).isSome = true := by
  rw [atPath_append] at h
  cases hp : atPath t p with
  | none => rw [hp] at h; simp at h
  | some u => simp

theorem dropLast_append_getLast_bang {α : Type} [Inhabited α] {l : List α}
    (h : l ≠ []) : l.dropLast ++ [l.getLast!] = l := by
  have h2 : l.getLast! = l.getLast h := by
    apply List.getLast!_of_getLast?
    exact List.getLast?_eq_getLast l h
  rw [h2]
  exact List.dropLast_append_getLast h

theorem atPath_snoc {T : Type} (t : Tree T) (p : List Nat) (i : Nat) :
    atPath t (p ++ [i]) = (atPath t p).bind fun u => u.children[i]? := by
  rw [atPath_append]
  cases hp : atPath t p with
  | none => rfl
  | some u =>
    simp only [Option.some_bind, atPath_cons]
    cases u.children[i]? with
    | none => rfl
    | some c => simp [atPath_nil]

theorem updateAt_of_atPath {T : Type} (g : Tree T → Tree T) {t u : Tree T}
    {p : List Nat} (h : atPath t p = some u) :
    ∃ t', updateAt t p g = some t' ∧ atPath t' p = some (g u) := by
  induction p generalizing t with
  | nil =>
    have ht : t = u := by simpa [atPath_nil] using h
    subst ht
    exact ⟨g t, by rw [updateAt_nil], by rw [atPath_nil]⟩
  | cons i rest ih =>
    rw [atPath_cons, Option.bind_eq_some] at h
    obtain ⟨c, hc, h⟩ := h
    obtain ⟨c', hc', hp⟩ := ih h
    have hlen : i < t.children.length := (List.getElem?_eq_some_iff.mp hc).1
    refine ⟨{ t with children := t.children.set i c' }, ?_, ?_⟩
    · rw [updateAt_cons, Option.bind_eq_some]
      exact ⟨c, hc, by rw [hc']; rfl⟩
    · rw [atPath_cons, Option.bind_eq_some]
      exact ⟨c', by simp [List.getElem?_set_self hlen], hp⟩

theorem updateAt_along_path {T : Type} {g : Tree T → Tree T} {t t' : Tree T}
    {p : List Nat} (h : updateAt t p g = some t') :
    ∀ q r, q ++ r = p →
      ∃ u u', atPath t q = some u ∧ atPath t' q = some u' ∧
        (r = [] → u' = g u) ∧
        (r ≠ [] → u'.label = u.label ∧ u'.childrenCount = u.childrenCount) := by
  induction p generalizing t t' with
  | nil =>
    intro q r hqr
    have hq : q = [] := by
      cases q with
      | nil => rfl
      | cons a as => simp at hqr
    subst hq
    have hr : r = [] := by simpa using hqr
    subst hr
    rw [updateAt_nil, Option.some.injEq] at h
    subst h
    exact ⟨t, g t, atPath_nil t, atPath_nil _, fun _ => rfl, by simp⟩
  | cons i rest ih =>
    intro q r hqr
    rw [updateAt_cons, Option.bind_eq_some] at h
    obtain ⟨c, hc, h⟩ := h
    rw [Option.map_eq_some'] at h
    obtain ⟨cnew, hc', ht'⟩ := h
    subst ht'
    have hlen : i < t.children.length := (List.getElem?_eq_some_iff.mp hc).1
    cases q with
    | nil =>
      refine ⟨t, _, atPath_nil t, atPath_nil _, ?_, ?_⟩
      · intro hr; rw [hr] at hqr; simp at hqr
      · intro _
        exact ⟨rfl, by simp [Tree.childrenCount]⟩
    | cons j q' =>
      obtain ⟨hji, hq'r⟩ : j = i ∧ q' ++ r = rest := by
        simpa using hqr
      subst hji
      obtain ⟨u, u', hu, hu', h1, h2⟩ := ih hc' q' r hq'r
      refine ⟨u, u', ?_, ?_, h1, h2⟩
      · rw [atPath_cons, hc, Option.some_bind]
        exact hu
      · rw [atPath_cons]
        simp only [List.getElem?_set_self hlen, Option.some_bind]
        exact hu'

theorem updateAt_frame {T : Type} {g : Tree T → Tree T} {t t' : Tree T}
    {p : List Nat} (h : updateAt t p g = some t') :
    ∀ q, (∀ r, q ++ r ≠ p) → (∀ r, p ++ r ≠ q) → atPath t' q = atPath t q := by
  induction p generalizing t t' with
  | nil =>
    intro q _ h2
    exact absurd (by simp) (h2 q)
  | cons i rest ih =>
    intro q h1 h2
    rw [updateAt_cons, Option.bind_eq_some] at h
    obtain ⟨c, hc, h⟩ := h
    rw [Option.map_eq_some'] at h
    obtain ⟨cnew, hc', ht'⟩ := h
    subst ht'
    have hlen : i < t.children.length := (List.getElem?_eq_some_iff.mp hc).1
    cases q with
    | nil => exact absurd (by simp) (h1 (i :: rest))
    | cons j q' =>
      by_cases hji : j = i
      · subst hji
        rw [atPath_cons, atPath_cons]
        simp only [List.getElem?_set_self hlen, hc, Option.some_bind]
        exact ih hc' q'
          (fun r hr => h1 r (by simp [hr]))
          (fun r hr => h2 r (by simp [hr]))
      · rw [atPath_cons, atPath_cons]
        simp only [List.getElem?_set_ne (fun hh => hji hh.symm)]

/-! ### Arithmetic and misc helper lemmas -/

theorem two_pow_31 : (2 : Int) ^ 31 = 2147483648 := by norm_num

theorem two_pow_32 : (2 : Int) ^ 32 = 4294967296 := by norm_num

theorem two_pow_64 : (2 : Int) ^ 64 = 18446744073709551616 := by norm_num

theorem wrap32_eq_of_range {z : Int} (h1 : -2 ^ 31 ≤ z) (h2 : z < 2 ^ 31) :
    wrap32 z = z := by
  unfold wrap32
  rw [two_pow_31, two_pow_32]
  rw [two_pow_31] at h1 h2
  omega

theorem wrap32_lb (z : Int) : -2 ^ 31 ≤ wrap32 z := by
  unfold wrap32
  rw [two_pow_31, two_pow_32]
  omega

theorem wrap32_ub (z : Int) : wrap32 z < 2 ^ 31 := by
  unfold wrap32
  rw [two_pow_31, two_pow_32]
  omega

theorem usizeOfI32_of_range {n : Int} (h1 : 0 ≤ n) (h2 : n < 2 ^ 64) :
    (usizeOfI32 n : Int) = n := by
  unfold usizeOfI32
  rw [two_pow_64] at h2 ⊢
  omega

theorem isSome_getElem_iff {α : Type} (l : List α) (i : Nat) :
    l[i]?.isSome = true ↔ i < l.length := by
  by_cases h : i < l.length
  · simp [List.getElem?_eq_getElem h, h]
  · simp [List.getElem?_eq_none (Nat.le_of_not_lt h), h]

theorem getLast_bang_concat {α : Type} [Inhabited α] (l : List α) (a : α) :
    (l ++ [a]).getLast! = a :=
  List.getLast!_of_getLast? (List.getLast?_concat l)

theorem focus_new_eq_fromTree {T : Type} (label : T) :
    Focus.fromTree (Tree.new label) none = some (Focus.new label) := rfl

theorem valid_def {T : Type} (f : Focus T) :
    f.Valid ↔ ∃ u, atPath f.tree f.path = some u := by
  unfold Focus.Valid Focus.at_path
  cases atPath f.tree f.path <;> simp

theorem valid_path_snoc {T : Type} {t : Tree T} {p : List Nat} {o : Nat}
    {v : Tree T} (h : atPath t (p ++ [o]) = some v) :
    ∃ u, atPath t p = some u ∧ u.children[o]? = some v := by
  rw [atPath_snoc, Option.bind_eq_some] at h
  exact h

theorem atPath_snoc_of_lt {T : Type} {t u : Tree T} {p : List Nat}
    (h : atPath t p = some u) {i : Nat} (hi : i < u.childrenCount) :
    atPath t (p ++ [i]) = some (u.children.get ⟨i, hi⟩) := by
  rw [atPath_snoc, h, Option.some_bind]
  simp [List.getElem?_eq_getElem hi]

/-! ### Characterizations of the jump arms -/

theorem jump_up_eq {T : Type} (f : Focus T) :
    f.jump .up = some { f with path := f.path.dropLast } := rfl

theorem jump_down_eq {T : Type} (f : Focus T) {foc : Tree T}
    (h : f.focused = some foc) :
    f.jump .down =
      if 0 < foc.childrenCount then some { f with path := f.path ++ [0] }
      else some f := by
  simp only [Focus.jump, h]

theorem jump_lateral_empty {T : Type} (f : Focus T) (h : f.path = [])
    (x : Int) : f.jump (.lateral x) = some f := by
  simp [Focus.jump, h]

theorem jump_lateral_eq_mk {T : Type} (t : Tree T) (pa : List Nat) (x : Int)
    {p : List Nat} {o : Nat} {parent : Tree T} (hpath : pa = p ++ [o])
    (hparent : atPath t p = some parent) :
    Focus.jump { tree := t, path := pa } (.lateral x) =
      some { tree := t, path := p ++
        [usizeOfI32 (
          if wrap32 (wrap32 (o : Int) + x) < 0 then 0
          else if wrap32 (wrap32 (o : Int) + x) ≥ wrap32 (parent.childrenCount : Int)
          then wrap32 (wrap32 (parent.childrenCount : Int) - 1)
          else wrap32 (wrap32 (o : Int) + x))] } := by
  subst hpath
  simp [Focus.jump, getLast_bang_concat, List.dropLast_concat, hparent]

theorem jump_lateral_eq {T : Type} (f : Focus T) (x : Int)
    {p : List Nat} {o : Nat} {parent : Tree T} (hpath : f.path = p ++ [o])
    (hparent : atPath f.tree p = some parent) :
    f.jump (.lateral x) =
      some { f with path := p ++
        [usizeOfI32 (
          if wrap32 (wrap32 (o : Int) + x) < 0 then 0
          else if wrap32 (wrap32 (o : Int) + x) ≥ wrap32 (parent.childrenCount : Int)
          then wrap32 (wrap32 (parent.childrenCount : Int) - 1)
          else wrap32 (wrap32 (o : Int) + x))] } := by
  obtain ⟨t, pa⟩ := f
  exact jump_lateral_eq_mk t pa x hpath hparent

theorem usizeOfI32_eq_toNat {z : Int} (h1 : 0 ≤ z) (h2 : z < 2 ^ 64) :
    usizeOfI32 z = z.toNat := by
  unfold usizeOfI32
  rw [Int.emod_eq_of_lt h1 h2]

/-! ### Claim theorems -/

/-- C8. For every tree and index `i`, `child_at(i)` (and likewise
`child_at_mut(i)`, which uses the same addressing rule) returns a present
result iff `0 ≤ i < children_count()`; the returned node is the `i`-th
child in insertion order (in particular the child appended by
`create_subtree` is found at the old count); the call is a pure lookup
with no side effect and never panics (totality is by construction). -/
theorem child_at_spec {T : Type} (t : Tree T) (i : Nat) :
    ((t.child_at i).isSome = true ↔ i < t.childrenCount) ∧
    t.child_at_mut i = t.child_at i ∧
    (∀ h : i < t.childrenCount, t.child_at i = some (t.children.get ⟨i, h⟩)) ∧
    (∀ label, (t.create_subtree label).child_at t.childrenCount =
      some (Tree.new label)) := by
  refine ⟨isSome_getElem_iff t.children i, rfl, ?_, ?_⟩
  · intro h
    rw [Tree.child_at_eq]
    simp [List.getElem?_eq_getElem h]
  · intro label
    rw [Tree.child_at_eq]
    show (t.children ++ [Tree.new label])[t.children.length]? = some (Tree.new label)
    exact List.getElem?_concat_length t.children (Tree.new label)

/-- Witness for C8 at a concrete tree: a root labelled 0 with one child
labelled 1. -/
theorem child_at_spec_witness :
    ((Tree.new (0 : Nat)).create_subtree 1).child_at 0 = some (Tree.new 1) ∧
    ((Tree.new (0 : Nat)).create_subtree 1).child_at 0 =
      some ((((Tree.new (0 : Nat)).create_subtree 1).children).get ⟨0, by decide⟩) :=
  ⟨(child_at_spec (Tree.new (0 : Nat)) 0).2.2.2 1,
   (child_at_spec ((Tree.new (0 : Nat)).create_subtree 1) 0).2.2.1 (by decide)⟩

/-- C7. `Focus::from(tree, path)` returns an absent result iff the
effective path (the supplied one, or `[]` when absent) fails to address a
node of `tree` by iterated child lookups; a present result carries exactly
the supplied tree and the effective path (hence satisfies the invariant);
with an absent path construction always succeeds with the empty path. -/
theorem fromTree_spec {T : Type} (t : Tree T) (p? : Option (List Nat)) :
    (Focus.fromTree t p? = none ↔ atPath t (p?.getD []) = none) ∧
    (∀ f, Focus.fromTree t p? = some f →
      f.tree = t ∧ f.path = p?.getD [] ∧ f.Valid) ∧
    Focus.fromTree t none = some { tree := t, path := [] } := by
  refine ⟨?_, ?_, rfl⟩
  · cases p? with
    | none => simp [Focus.fromTree, Focus.at_path, atPath_nil]
    | some p =>
      simp only [Focus.fromTree, Focus.at_path, Option.getD_some]
      cases h : atPath t p <;> simp [h]
  · intro f hf
    cases p? with
    | none =>
      simp only [Focus.fromTree, Focus.at_path, atPath_nil, Option.some.injEq] at hf
      subst hf
      refine ⟨rfl, rfl, ?_⟩
      rw [valid_def]
      exact ⟨t, atPath_nil t⟩
    | some p =>
      simp only [Focus.fromTree, Focus.at_path, Option.getD_some] at hf ⊢
      cases h : atPath t p with
      | none => rw [h] at hf; exact Option.noConfusion hf
      | some u =>
        rw [h, Option.some.injEq] at hf
        subst hf
        refine ⟨rfl, rfl, ?_⟩
        rw [valid_def]
        exact ⟨u, h⟩

/-- Witness for C7: constructing at path `[0]` inside a two-node tree
succeeds, and the resulting focus is valid. -/
theorem fromTree_spec_witness :
    ({ tree := (Tree.new (0 : Nat)).create_subtree 1, path := [0] } : Focus Nat).tree
      = (Tree.new (0 : Nat)).create_subtree 1 ∧
    ({ tree := (Tree.new (0 : Nat)).create_subtree 1, path := [0] } : Focus Nat).Valid :=
  have h := (fromTree_spec ((Tree.new (0 : Nat)).create_subtree 1) (some [0])).2.1
    { tree := (Tree.new (0 : Nat)).create_subtree 1, path := [0] } rfl
  ⟨h.1, h.2.2⟩

/-- C5. Under the invariant: `Jump::Up` removes the last path element,
and is a no-op when the path is already empty; `Jump::Down` appends index
`0` to the path iff the focused node has at least one child, and is a
no-op when it has zero children. -/
theorem jump_up_down_spec {T : Type} (f : Focus T) (hv : f.Valid) :
    (f.jump .up = some { f with path := f.path.dropLast }) ∧
    (f.path = [] → f.jump .up = some f) ∧
    (∀ foc, f.focused = some foc →
      (0 < foc.childrenCount →
        f.jump .down = some { f with path := f.path ++ [0] }) ∧
      (foc.childrenCount = 0 → f.jump .down = some f)) := by
  refine ⟨jump_up_eq f, ?_, ?_⟩
  · intro h
    obtain ⟨t, pa⟩ := f
    simp only at h
    subst h
    rfl
  · intro foc hfoc
    constructor <;> intro h <;> rw [jump_down_eq f hfoc] <;> simp [h]

/-- Witness for C5 at the one-node focus: both jumps are no-ops. -/
theorem jump_up_down_spec_witness :
    Focus.jump (Focus.new (0 : Nat)) .up = some (Focus.new 0) ∧
    Focus.jump (Focus.new (0 : Nat)) .down = some (Focus.new 0) :=
  have h := jump_up_down_spec (Focus.new (0 : Nat)) (by decide)
  ⟨h.2.1 rfl, (h.2.2 (Tree.new 0) rfl).2 rfl⟩

/-- C2 counterexample. Root with `k = 2` children, focus at path `[1]`
(`o = 1`), offset `n = 2^31 - 1`: the Rust `i32` sum `o + n` wraps to
`-2^31`, which the code clamps to index `0`, while the claim's formula
`max(0, min(k-1, o+n))` yields `1`. -/
theorem jump_lateral_overflow_cex :
    (Focus.jump
        { tree := { label := (0 : Nat), children := [Tree.new 1, Tree.new 2] },
          path := [1] }
        (.lateral 2147483647)).map Focus.path = some [0] ∧
    max 0 (min ((2 : Int) - 1) (1 + 2147483647)) = 1 := by
  constructor
  · decide
  · decide

/-- C2, amended. A lateral jump on a non-empty path replaces the last
element `o` by `max(0, min(k-1, o+n))`, `k` the parent's children count,
*provided* `k < 2^31` and the i32 sum does not overflow (`o + n < 2^31`);
with an empty path it is a no-op; the tree and the other path elements are
unchanged.  (Without the overflow proviso the claim fails, see the
counterexample: the i32 sum wraps.) -/
theorem jump_lateral_spec {T : Type} (f : Focus T) (n : Int) (hv : f.Valid)
    (hn : -2 ^ 31 ≤ n) :
    (f.path = [] → f.jump (.lateral n) = some f) ∧
    (∀ (p : List Nat) (o : Nat) (parent : Tree T),
      f.path = p ++ [o] → atPath f.tree p = some parent →
      parent.childrenCount < 2 ^ 31 → (o : Int) + n < 2 ^ 31 →
      f.jump (.lateral n) =
        some { f with path := p ++
          [(max 0 (min ((parent.childrenCount : Int) - 1)
              ((o : Int) + n))).toNat] }) := by
  constructor
  · exact fun h => jump_lateral_empty f h n
  · intro p o parent hpath hparent hk hov
    obtain ⟨v, hvv⟩ := (valid_def f).mp hv
    rw [hpath] at hvv
    obtain ⟨u, hu, hcv⟩ := valid_path_snoc hvv
    have huparent : parent = u := by
      rw [hu] at hparent
      exact (Option.some.inj hparent).symm
    subst huparent
    have ho : o < parent.childrenCount := (List.getElem?_eq_some_iff.mp hcv).1
    rw [jump_lateral_eq f n hpath hparent]
    have hoNN : (0 : Int) ≤ (o : Int) := Int.natCast_nonneg o
    have hoI : (o : Int) < (parent.childrenCount : Int) := by exact_mod_cast ho
    have hkI : (parent.childrenCount : Int) < 2 ^ 31 := by exact_mod_cast hk
    have hkNN : (0 : Int) < (parent.childrenCount : Int) := lt_of_le_of_lt hoNN hoI
    have hlow : (-2 : Int) ^ 31 ≤ 0 := by norm_num
    have hlow' : -(2 : Int) ^ 31 ≤ 0 := by norm_num
    have h1 : wrap32 (o : Int) = (o : Int) :=
      wrap32_eq_of_range (le_trans hlow' hoNN) (lt_trans hoI hkI)
    rw [h1]
    have h2 : wrap32 ((o : Int) + n) = (o : Int) + n :=
      wrap32_eq_of_range (by linarith) hov
    rw [h2]
    have h3 : wrap32 (parent.childrenCount : Int) = (parent.childrenCount : Int) :=
      wrap32_eq_of_range (le_trans hlow' (le_of_lt hkNN)) hkI
    rw [h3]
    have h4 : wrap32 ((parent.childrenCount : Int) - 1) =
        (parent.childrenCount : Int) - 1 :=
      wrap32_eq_of_range (by linarith) (by linarith)
    rw [h4]
    have hifeq :
        (if (o : Int) + n < 0 then 0
         else if (o : Int) + n ≥ (parent.childrenCount : Int)
         then (parent.childrenCount : Int) - 1
         else (o : Int) + n) =
        max 0 (min ((parent.childrenCount : Int) - 1) ((o : Int) + n)) := by
      split_ifs with hA hB
      · rw [min_eq_right (by linarith), max_eq_left (by linarith)]
      · rw [min_eq_left (by linarith), max_eq_right (by linarith)]
      · rw [min_eq_right (by linarith), max_eq_right (by linarith)]
    rw [hifeq]
    have hp64 : ((2 : Int) ^ 31) < 2 ^ 64 := by norm_num
    have hYnn : 0 ≤ max 0 (min ((parent.childrenCount : Int) - 1) ((o : Int) + n)) :=
      le_max_left 0 _
    have hYlt : max 0 (min ((parent.childrenCount : Int) - 1) ((o : Int) + n))
        < 2 ^ 64 := by
      have h5 : min ((parent.childrenCount : Int) - 1) ((o : Int) + n) ≤
          (parent.childrenCount : Int) - 1 := min_le_left _ _
      apply max_lt (by norm_num)
      linarith
    rw [usizeOfI32_eq_toNat hYnn hYlt]

/-- Witness for the amended C2: two children, path `[1]`, lateral offset
`-1` moves the focus to index `0 = max(0, min(1, 0))`. -/
theorem jump_lateral_spec_witness :
    Focus.jump
        { tree := { label := (0 : Nat), children := [Tree.new 1, Tree.new 2] },
          path := [1] } (.lateral (-1)) =
      some { tree := { label := (0 : Nat), children := [Tree.new 1, Tree.new 2] },
             path := [0] } := by
  have h := (jump_lateral_spec
      { tree := { label := (0 : Nat), children := [Tree.new 1, Tree.new 2] },
        path := [1] }
      (-1) (by decide) (by norm_num)).2 [] 1
      { label := (0 : Nat), children := [Tree.new 1, Tree.new 2] }
      rfl rfl (by norm_num [Tree.childrenCount]) (by norm_num)
  rw [h]
  norm_num [Tree.childrenCount]

/-! ### create_subtree characterization, C3 -/

theorem childrenCount_create_subtree {T : Type} (t : Tree T) (label : T) :
    (t.create_subtree label).childrenCount = t.childrenCount + 1 := by
  simp [Tree.create_subtree, Tree.childrenCount]

theorem childrenCount_new {T : Type} (label : T) :
    (Tree.new label).childrenCount = 0 := rfl

theorem create_subtree_eq {T : Type} (f : Focus T) {foc : Tree T}
    (hfoc : f.focused = some foc) (label : T) :
    ∃ t', updateAt f.tree f.path (fun st => st.create_subtree label) = some t' ∧
      atPath t' f.path = some (foc.create_subtree label) ∧
      f.create_subtree label =
        some { tree := t', path := f.path ++ [foc.childrenCount] } := by
  have h : atPath f.tree f.path = some foc := hfoc
  obtain ⟨t', ht', hat⟩ := updateAt_of_atPath (fun st => st.create_subtree label) h
  refine ⟨t', ht', hat, ?_⟩
  simp only [Focus.create_subtree, ht', hat, childrenCount_create_subtree,
    Nat.add_sub_cancel]

/-- C3. Under the invariant, `create_subtree(label)` increases the
focused node's children count by exactly 1, the new last child is the leaf
`Tree::new(label)`, the path is extended by exactly one element equal to
the new children count minus 1, and afterwards the new node is the focused
node. -/
theorem create_subtree_spec {T : Type} (f : Focus T) (label : T)
    (hv : f.Valid) :
    ∀ foc, f.focused = some foc →
      ∃ f', f.create_subtree label = some f' ∧
        atPath f'.tree f.path = some (foc.create_subtree label) ∧
        (foc.create_subtree label).childrenCount = foc.childrenCount + 1 ∧
        (foc.create_subtree label).children.getLast? = some (Tree.new label) ∧
        f'.path = f.path ++ [(foc.create_subtree label).childrenCount - 1] ∧
        f'.focused = some (Tree.new label) := by
  intro foc hfoc
  obtain ⟨t', ht', hat, heq⟩ := create_subtree_eq f hfoc label
  refine ⟨_, heq, hat, childrenCount_create_subtree foc label, ?_, ?_, ?_⟩
  · show (foc.children ++ [Tree.new label]).getLast? = some (Tree.new label)
    exact List.getLast?_concat foc.children
  · simp [childrenCount_create_subtree]
  · show atPath t' (f.path ++ [foc.childrenCount]) = some (Tree.new label)
    rw [atPath_snoc, hat, Option.some_bind]
    show (foc.children ++ [Tree.new label])[foc.children.length]? =
      some (Tree.new label)
    exact List.getElem?_concat_length foc.children (Tree.new label)

/-- Witness for C3: creating a subtree from the one-node focus yields path
`[0]` and focuses the new leaf. -/
theorem create_subtree_spec_witness :
    (Focus.create_subtree (Focus.new (0 : Nat)) 1).map Focus.path = some [0] ∧
    (Focus.create_subtree (Focus.new (0 : Nat)) 1).bind Focus.focused =
      some (Tree.new 1) := by
  obtain ⟨f', h1, h2, h3, h4, h5, h6⟩ :=
    create_subtree_spec (Focus.new (0 : Nat)) 1 (by decide) (Tree.new 0) rfl
  rw [h1]
  constructor
  · simp only [Option.map_some']
    rw [h5]
    simp [childrenCount_create_subtree, childrenCount_new, Focus.new]
  · simp only [Option.some_bind]
    exact h6

/-! ### labels, C6 -/

theorem specLabels_isSome {T : Type} {t u : Tree T} {p : List Nat}
    (h : atPath t p = some u) : ∃ ls, specLabels t p = some ls := by
  induction p generalizing t with
  | nil => exact ⟨[t.label], rfl⟩
  | cons i rest ih =>
    rw [atPath_cons, Option.bind_eq_some] at h
    obtain ⟨c, hc, h⟩ := h
    obtain ⟨ls, hls⟩ := ih h
    exact ⟨t.label :: ls, by simp [specLabels, hc, hls]⟩

theorem specLabels_length {T : Type} {t : Tree T} {p : List Nat}
    {ls : List T} (h : specLabels t p = some ls) :
    ls.length = p.length + 1 := by
  induction p generalizing t ls with
  | nil =>
    simp only [specLabels, Option.some.injEq] at h
    subst h
    rfl
  | cons i rest ih =>
    simp only [specLabels, Option.bind_eq_some] at h
    obtain ⟨c, hc, h⟩ := h
    rw [Option.map_eq_some'] at h
    obtain ⟨ls', hls', rfl⟩ := h
    simp [ih hls']

theorem specLabels_last {T : Type} {t u : Tree T} {p : List Nat}
    {ls : List T} (hs : specLabels t p = some ls)
    (ha : atPath t p = some u) : ls.getLast? = some u.label := by
  induction p generalizing t ls with
  | nil =>
    simp only [specLabels, Option.some.injEq] at hs
    have ht : t = u := by simpa [atPath_nil] using ha
    subst hs
    subst ht
    rfl
  | cons i rest ih =>
    simp only [specLabels, Option.bind_eq_some] at hs
    obtain ⟨c, hc, hs⟩ := hs
    rw [Option.map_eq_some'] at hs
    obtain ⟨ls', hls', rfl⟩ := hs
    rw [atPath_cons, hc, Option.some_bind] at ha
    have hlen : ls'.length = rest.length + 1 := specLabels_length hls'
    cases ls' with
    | nil => simp at hlen
    | cons b l =>
      rw [List.getLast?_cons_cons]
      exact ih hls' ha

theorem labelsFold_eq {T : Type} (f : Focus T) :
    ∀ (rest : List Nat) (labels : List T) (acc : List Nat) (u : Tree T)
      (ls : List T), atPath f.tree acc = some u → specLabels u rest = some ls →
      labelsFold f rest (labels, acc) =
        some (labels ++ ls.dropLast, acc ++ rest) := by
  intro rest
  induction rest with
  | nil =>
    intro labels acc u ls h hs
    simp only [specLabels, Option.some.injEq] at hs
    subst hs
    simp [labelsFold]
  | cons x rest' ih =>
    intro labels acc u ls h hs
    simp only [specLabels, Option.bind_eq_some] at hs
    obtain ⟨c, hc, hs⟩ := hs
    rw [Option.map_eq_some'] at hs
    obtain ⟨ls', hls', rfl⟩ := hs
    have ha : f.at_path acc = some u := h
    have hnext : atPath f.tree (acc ++ [x]) = some c := by
      rw [atPath_snoc, h, Option.some_bind]
      exact hc
    have hne : ls' ≠ [] := by
      intro hcon
      have := specLabels_length hls'
      rw [hcon] at this
      simp at this
    simp only [labelsFold, ha]
    rw [ih (labels ++ [u.label]) (acc ++ [x]) c ls' hnext hls']
    rw [List.dropLast_cons_of_ne_nil hne]
    simp

/-- C6. Under the invariant, `labels()` returns exactly the ordered
sequence of labels of the nodes visited when walking the path from the
root down to and including the focused node (the spec-side `specLabels`),
and its length is `path().len() + 1`. -/
theorem labels_spec {T : Type} (f : Focus T) (hv : f.Valid) :
    ∃ ls, f.labels = some ls ∧ specLabels f.tree f.path = some ls ∧
      ls.length = f.path.length + 1 := by
  obtain ⟨u, hu⟩ := (valid_def f).mp hv
  obtain ⟨ls, hls⟩ := specLabels_isSome hu
  refine ⟨ls, ?_, hls, specLabels_length hls⟩
  have hfold := labelsFold_eq f f.path [] [] f.tree ls (atPath_nil f.tree) hls
  have hfocused : f.focused = some u := hu
  simp only [Focus.labels, hfold, hfocused, List.nil_append]
  rw [List.dropLast_append_getLast? u.label
    (Option.mem_def.mpr (specLabels_last hls hu))]

/-- Witness for C6 at a two-node tree focused on the child: labels are
`[0, 1]`. -/
theorem labels_spec_witness :
    Focus.labels
      { tree := { label := (0 : Nat), children := [Tree.new 1] },
        path := [0] } = some [0, 1] := by
  obtain ⟨ls, h1, h2, h3⟩ := labels_spec
    { tree := { label := (0 : Nat), children := [Tree.new 1] }, path := [0] }
    (by decide)
  have hcalc : specLabels { label := (0 : Nat), children := [Tree.new 1] } [0] =
      some [0, 1] := rfl
  have hls : ls = [0, 1] := by
    rw [hcalc] at h2
    exact (Option.some.inj h2).symm
  rw [h1, hls]

/-! ### jump totality and frame lemmas, C9 and C4 -/

theorem jump_tree_eq {T : Type} (f : Focus T) (hv : f.Valid) (j : Jump) :
    ∃ f', f.jump j = some f' ∧ f'.tree = f.tree := by
  obtain ⟨u, hu⟩ := (valid_def f).mp hv
  have hfoc : f.focused = some u := hu
  cases j with
  | up => exact ⟨_, jump_up_eq f, rfl⟩
  | down =>
    by_cases h : 0 < u.childrenCount
    · exact ⟨{ f with path := f.path ++ [0] },
        by rw [jump_down_eq f hfoc, if_pos h], rfl⟩
    · exact ⟨f, by rw [jump_down_eq f hfoc, if_neg h], rfl⟩
  | lateral x =>
    by_cases hpa : f.path = []
    · exact ⟨f, jump_lateral_empty f hpa x, rfl⟩
    · have hsplit : f.path = f.path.dropLast ++ [f.path.getLast!] :=
        (dropLast_append_getLast_bang hpa).symm
      have hu' : atPath f.tree (f.path.dropLast ++ [f.path.getLast!]) = some u := by
        rw [← hsplit]
        exact hu
      obtain ⟨parent, hparent, _⟩ := valid_path_snoc hu'
      exact ⟨_, jump_lateral_eq f x hsplit hparent, rfl⟩

theorem atPath_create_subtree_ext {T : Type} (foc : Tree T) (label : T)
    (j : Nat) (r' : List Nat) (hne : ¬(j = foc.childrenCount ∧ r' = [])) :
    atPath (foc.create_subtree label) (j :: r') = atPath foc (j :: r') := by
  rw [atPath_cons, atPath_cons]
  show ((foc.children ++ [Tree.new label])[j]?).bind _ =
    (foc.children[j]?).bind _
  rcases Nat.lt_trichotomy j foc.children.length with hj | hj | hj
  · rw [List.getElem?_append_left hj]
  · subst hj
    rw [List.getElem?_concat_length, List.getElem?_eq_none (Nat.le_refl _),
      Option.some_bind, Option.none_bind]
    cases r' with
    | nil => exact absurd ⟨rfl, rfl⟩ hne
    | cons a r'' =>
      rw [atPath_cons]
      show ((([] : List (Tree T)))[a]?).bind _ = none
      simp
  · rw [List.getElem?_eq_none (by simpa using hj),
      List.getElem?_eq_none (Nat.le_of_lt hj)]

/-- C9. Frame condition under the invariant: every `jump` leaves the
tree component completely unchanged (only the path may change), and
`create_subtree` changes the tree only by appending one new leaf at the
focused node — the new leaf appears at index `children_count()`, every
subtree not on the focused path is bitwise unchanged, and every node on
the path keeps its label and children count except the focused node whose
count grows by exactly 1. -/
theorem frame_spec {T : Type} (f : Focus T) (hv : f.Valid) :
    (∀ j, ∃ f', f.jump j = some f' ∧ f'.tree = f.tree) ∧
    (∀ label foc, f.focused = some foc →
      ∃ f', f.create_subtree label = some f' ∧
        atPath f'.tree (f.path ++ [foc.childrenCount]) = some (Tree.new label) ∧
        (∀ q, (∀ r, q ++ r ≠ f.path) → q ≠ f.path ++ [foc.childrenCount] →
          atPath f'.tree q = atPath f.tree q) ∧
        (∀ q r, q ++ r = f.path →
          ∃ u u', atPath f.tree q = some u ∧ atPath f'.tree q = some u' ∧
            u'.label = u.label ∧
            u'.childrenCount = u.childrenCount + (if r = [] then 1 else 0))) := by
  refine ⟨jump_tree_eq f hv, ?_⟩
  intro label foc hfoc
  have hfocAt : atPath f.tree f.path = some foc := hfoc
  obtain ⟨t', ht', hat, heq⟩ := create_subtree_eq f hfoc label
  refine ⟨_, heq, ?_, ?_, ?_⟩
  · show atPath t' (f.path ++ [foc.childrenCount]) = some (Tree.new label)
    rw [atPath_snoc, hat, Option.some_bind]
    show (foc.children ++ [Tree.new label])[foc.children.length]? =
      some (Tree.new label)
    exact List.getElem?_concat_length foc.children (Tree.new label)
  · intro q h1 h2
    show atPath t' q = atPath f.tree q
    by_cases hext : ∃ r, f.path ++ r = q
    · obtain ⟨r, hr⟩ := hext
      subst hr
      cases r with
      | nil => exact absurd (by simp) (h1 [])
      | cons j r' =>
        rw [atPath_append, atPath_append, hat, hfocAt, Option.some_bind,
          Option.some_bind]
        refine atPath_create_subtree_ext foc label j r' ?_
        rintro ⟨hj, hr'⟩
        subst hj
        subst hr'
        exact h2 rfl
    · push_neg at hext
      exact updateAt_frame ht' q h1 hext
  · intro q r hqr
    obtain ⟨u, u', hu, hu', hr1, hr2⟩ := updateAt_along_path ht' q r hqr
    by_cases hr : r = []
    · subst hr
      refine ⟨u, u', hu, hu', ?_, ?_⟩
      · rw [hr1 rfl]
        rfl
      · rw [hr1 rfl, if_pos rfl]
        exact childrenCount_create_subtree u label
    · obtain ⟨hl, hc⟩ := hr2 hr
      exact ⟨u, u', hu, hu', hl, by rw [if_neg hr]; omega⟩

/-- Witness for C9: on the one-node focus, `Down` keeps the tree, and a
created subtree appears at path `[0]`. -/
theorem frame_spec_witness :
    (Focus.jump (Focus.new (0 : Nat)) .down).map Focus.tree =
      some (Tree.new 0) ∧
    (Focus.create_subtree (Focus.new (0 : Nat)) 5).bind
      (fun f' => atPath f'.tree [0]) = some (Tree.new 5) := by
  obtain ⟨h1, h2⟩ := frame_spec (Focus.new (0 : Nat)) (by decide)
  constructor
  · obtain ⟨f', hf', htree⟩ := h1 .down
    rw [hf', Option.map_some', htree]
    rfl
  · obtain ⟨f', hc, hnew, _, _⟩ := h2 5 (Tree.new 0) rfl
    rw [hc, Option.some_bind]
    exact hnew

/-- C4. Totality under the invariant: `jump` (every movement,
`Lateral` with an arbitrary integer offset — even beyond the i32 range),
`create_subtree`, `labels` and `focused` never panic and never signal
failure (modelled: never return `none`); `path` is a pure projection and
is total by construction. -/
theorem totality_spec {T : Type} (f : Focus T) (hv : f.Valid) :
    (∀ j, (f.jump j).isSome = true) ∧
    (∀ label, (f.create_subtree label).isSome = true) ∧
    (f.labels).isSome = true ∧
    (f.focused).isSome = true := by
  obtain ⟨u, hu⟩ := (valid_def f).mp hv
  have hfoc : f.focused = some u := hu
  refine ⟨?_, ?_, ?_, by rw [hfoc]; rfl⟩
  · intro j
    obtain ⟨f', hf', _⟩ := jump_tree_eq f hv j
    rw [hf']
    rfl
  · intro label
    obtain ⟨t', _, _, heq⟩ := create_subtree_eq f hfoc label
    rw [heq]
    rfl
  · obtain ⟨ls, hls⟩ := specLabels_isSome hu
    have hfold := labelsFold_eq f f.path [] [] f.tree ls (atPath_nil f.tree) hls
    simp [Focus.labels, hfold, hfoc]

/-- Witness for C4: on the one-node focus, an extreme lateral offset and a
huge `Up`-less boundary case are all total. -/
theorem totality_spec_witness :
    ((Focus.new (0 : Nat)).jump (.lateral (-123456789123456789))).isSome = true ∧
    ((Focus.new (0 : Nat)).labels).isSome = true :=
  ⟨(totality_spec (Focus.new (0 : Nat)) (by decide)).1 (.lateral (-123456789123456789)),
   (totality_spec (Focus.new (0 : Nat)) (by decide)).2.2.1⟩

/-! ### Children-count bounds and invariant preservation, C1 -/

theorem countsLE_iff {T : Type} (t : Tree T) (m : Nat) :
    t.countsLE m = true ↔
      (t.childrenCount + m ≤ 2 ^ 31 ∧ ∀ c ∈ t.children, c.countsLE m = true) := by
  rw [Tree.countsLE]
  rw [Bool.and_eq_true, decide_eq_true_eq, List.all_eq_true]
  constructor
  · rintro ⟨h1, h2⟩
    exact ⟨h1, fun c hc => h2 ⟨c, hc⟩ (List.mem_attach _ _)⟩
  · rintro ⟨h1, h2⟩
    exact ⟨h1, fun x _ => h2 x.1 x.2⟩

theorem countsLE_of_le {T : Type} {m' m : Nat} (hm : m' ≤ m) :
    ∀ (n : Nat) (t : Tree T), sizeOf t ≤ n →
      t.countsLE m = true → t.countsLE m' = true := by
  intro n
  induction n with
  | zero =>
    intro t ht
    obtain ⟨l, cs⟩ := t
    simp only [Tree.mk.sizeOf_spec] at ht
    omega
  | succ n ih =>
    intro t ht h
    obtain ⟨l, cs⟩ := t
    rw [countsLE_iff] at h ⊢
    refine ⟨by omega, fun c hc => ih c ?_ (h.2 c hc)⟩
    have hlt := List.sizeOf_lt_of_mem hc
    have hlt2 : sizeOf c < sizeOf cs := by simpa using hlt
    simp only [Tree.mk.sizeOf_spec] at ht
    omega

theorem countsLE_mono {T : Type} {t : Tree T} {m' m : Nat} (hm : m' ≤ m)
    (h : t.countsLE m = true) : t.countsLE m' = true :=
  countsLE_of_le hm (sizeOf t) t (Nat.le_refl _) h

theorem countsLE_atPath {T : Type} {t u : Tree T} {q : List Nat} {m : Nat}
    (h : t.countsLE m = true) (ha : atPath t q = some u) :
    u.countsLE m = true := by
  induction q generalizing t with
  | nil =>
    have ht : t = u := by simpa [atPath_nil] using ha
    subst ht
    exact h
  | cons i rest ih =>
    rw [atPath_cons, Option.bind_eq_some] at ha
    obtain ⟨c, hc, ha⟩ := ha
    exact ih (((countsLE_iff t m).mp h).2 c (List.getElem?_mem hc)) ha

theorem countsLE_new {T : Type} (label : T) (m : Nat) (hm : m ≤ 2 ^ 31) :
    (Tree.new label).countsLE m = true := by
  rw [countsLE_iff]
  constructor
  · simpa [childrenCount_new] using hm
  · intro c hc
    simp [Tree.new] at hc

theorem countsLE_updateAt {T : Type} {t t' : Tree T} {p : List Nat}
    {label : T} {m : Nat}
    (h : updateAt t p (fun st => st.create_subtree label) = some t')
    (hb : t.countsLE (m + 1) = true) : t'.countsLE m = true := by
  induction p generalizing t t' with
  | nil =>
    rw [updateAt_nil, Option.some.injEq] at h
    subst h
    rw [countsLE_iff] at hb ⊢
    obtain ⟨h1, h2⟩ := hb
    refine ⟨by rw [childrenCount_create_subtree]; omega, ?_⟩
    intro c hc
    have hc' : c ∈ t.children ++ [Tree.new label] := hc
    rcases List.mem_append.mp hc' with hmem | hmem
    · exact countsLE_mono (Nat.le_succ m) (h2 c hmem)
    · have hcnew : c = Tree.new label := by simpa using hmem
      subst hcnew
      exact countsLE_new label m (by omega)
  | cons i rest ih =>
    rw [updateAt_cons, Option.bind_eq_some] at h
    obtain ⟨c, hc, h⟩ := h
    rw [Option.map_eq_some'] at h
    obtain ⟨cnew, hcnew, ht'⟩ := h
    subst ht'
    rw [countsLE_iff] at hb ⊢
    obtain ⟨h1, h2⟩ := hb
    constructor
    · simp only [Tree.childrenCount] at h1 ⊢
      rw [List.length_set]
      omega
    · intro d hd
      have hd' : d ∈ t.children.set i cnew := hd
      rcases List.mem_or_eq_of_mem_set hd' with hmem | heq
      · exact countsLE_mono (Nat.le_succ m) (h2 d hmem)
      · subst heq
        exact ih hcnew (h2 c (List.getElem?_mem hc))

theorem fromTree_of_atPath {T : Type} {t : Tree T} {p : List Nat}
    {w : Tree T} (h : atPath t p = some w) :
    Focus.fromTree t (some p) = some { tree := t, path := p } := by
  simp only [Focus.fromTree, Focus.at_path, h]

theorem applyOps_single {T : Type} {f f' : Focus T} {j : Jump}
    (h : f.jump j = some f') : applyOps f [Op.jmp j] = some f' := by
  simp only [applyOps, applyOp, h]

theorem not_valid_of_atPath_none {T : Type} {t : Tree T} {p : List Nat}
    (h : atPath t p = none) : ¬ Focus.Valid { tree := t, path := p } := by
  intro hcon
  obtain ⟨w, hw⟩ := (valid_def _).mp hcon
  have hw2 : atPath t p = some w := hw
  rw [h] at hw2
  exact Option.noConfusion hw2

theorem atPath_dropLast_isSome {T : Type} {t : Tree T} {p : List Nat}
    (h : (atPath t p).isSome = true) : (atPath t p.dropLast).isSome = true := by
  by_cases hp : p = []
  · subst hp
    simpa using h
  · have hsplit : p = p.dropLast ++ [p.getLast!] :=
      (dropLast_append_getLast_bang hp).symm
    rw [hsplit] at h
    exact atPath_prefix_isSome h

theorem lateral_index_lt {T : Type} (parent : Tree T) (o : Nat) (x : Int)
    (ho : o < parent.childrenCount) (hk : parent.childrenCount < 2 ^ 31) :
    usizeOfI32 (
      if wrap32 (wrap32 (o : Int) + x) < 0 then 0
      else if wrap32 (wrap32 (o : Int) + x) ≥ wrap32 (parent.childrenCount : Int)
      then wrap32 (wrap32 (parent.childrenCount : Int) - 1)
      else wrap32 (wrap32 (o : Int) + x)) < parent.childrenCount := by
  have hoNN : (0 : Int) ≤ (o : Int) := Int.natCast_nonneg o
  have hoI : (o : Int) < (parent.childrenCount : Int) := by exact_mod_cast ho
  have hkI : (parent.childrenCount : Int) < 2 ^ 31 := by exact_mod_cast hk
  have hkNN : (0 : Int) < (parent.childrenCount : Int) := lt_of_le_of_lt hoNN hoI
  have hlow : -(2 : Int) ^ 31 ≤ 0 := by norm_num
  have h1 : wrap32 (o : Int) = (o : Int) :=
    wrap32_eq_of_range (le_trans hlow hoNN) (lt_trans hoI hkI)
  rw [h1]
  have h3 : wrap32 (parent.childrenCount : Int) = (parent.childrenCount : Int) :=
    wrap32_eq_of_range (le_trans hlow (le_of_lt hkNN)) hkI
  rw [h3]
  have h4 : wrap32 ((parent.childrenCount : Int) - 1) =
      (parent.childrenCount : Int) - 1 :=
    wrap32_eq_of_range (by linarith) (by linarith)
  rw [h4]
  have hslb := wrap32_lb ((o : Int) + x)
  have hsub := wrap32_ub ((o : Int) + x)
  have h64 : ((2 : Int) ^ 31) < 2 ^ 64 := by norm_num
  split_ifs with hA hB
  · rw [usizeOfI32_eq_toNat (le_refl 0) (by norm_num)]
    omega
  · rw [usizeOfI32_eq_toNat (by linarith) (by linarith)]
    omega
  · have hA2 : (0 : Int) ≤ wrap32 ((o : Int) + x) := not_lt.mp hA
    push_neg at hB
    rw [usizeOfI32_eq_toNat hA2 (by linarith)]
    omega

theorem applyOp_step {T : Type} {f : Focus T} (hv : f.Valid) {m : Nat}
    (hb : f.tree.countsLE (m + 1) = true) (op : Op T) :
    ∃ f', applyOp f op = some f' ∧ f'.Valid ∧ f'.tree.countsLE m = true := by
  obtain ⟨u, hu⟩ := (valid_def f).mp hv
  have hfoc : f.focused = some u := hu
  cases op with
  | cst label =>
    obtain ⟨t', ht', hat, heq⟩ := create_subtree_eq f hfoc label
    refine ⟨_, heq, ?_, countsLE_updateAt ht' hb⟩
    rw [valid_def]
    refine ⟨Tree.new label, ?_⟩
    show atPath t' (f.path ++ [u.childrenCount]) = some (Tree.new label)
    rw [atPath_snoc, hat, Option.some_bind]
    show (u.children ++ [Tree.new label])[u.children.length]? =
      some (Tree.new label)
    exact List.getElem?_concat_length u.children (Tree.new label)
  | jmp j =>
    cases j with
    | up =>
      refine ⟨_, jump_up_eq f, ?_, countsLE_mono (Nat.le_succ m) hb⟩
      rw [valid_def]
      have hds : (atPath f.tree f.path.dropLast).isSome = true :=
        atPath_dropLast_isSome (by rw [hu]; rfl)
      obtain ⟨w, hw⟩ := Option.isSome_iff_exists.mp hds
      exact ⟨w, hw⟩
    | down =>
      by_cases h : 0 < u.childrenCount
      · refine ⟨{ f with path := f.path ++ [0] }, ?_, ?_,
          countsLE_mono (Nat.le_succ m) hb⟩
        · show f.jump .down = _
          rw [jump_down_eq f hfoc, if_pos h]
        · rw [valid_def]
          exact ⟨_, atPath_snoc_of_lt hu h⟩
      · refine ⟨f, ?_, hv, countsLE_mono (Nat.le_succ m) hb⟩
        show f.jump .down = some f
        rw [jump_down_eq f hfoc, if_neg h]
    | lateral x =>
      by_cases hpa : f.path = []
      · exact ⟨f, jump_lateral_empty f hpa x, hv,
          countsLE_mono (Nat.le_succ m) hb⟩
      · have hsplit : f.path = f.path.dropLast ++ [f.path.getLast!] :=
          (dropLast_append_getLast_bang hpa).symm
        have hu2 : atPath f.tree (f.path.dropLast ++ [f.path.getLast!]) = some u := by
          rw [← hsplit]
          exact hu
        obtain ⟨parent, hparent, hchild⟩ := valid_path_snoc hu2
        have ho : f.path.getLast! < parent.childrenCount :=
          (List.getElem?_eq_some_iff.mp hchild).1
        have hkb : parent.childrenCount + (m + 1) ≤ 2 ^ 31 :=
          ((countsLE_iff parent (m + 1)).mp (countsLE_atPath hb hparent)).1
        have hk : parent.childrenCount < 2 ^ 31 := by omega
        refine ⟨_, jump_lateral_eq f x hsplit hparent, ?_,
          countsLE_mono (Nat.le_succ m) hb⟩
        rw [valid_def]
        exact ⟨_, atPath_snoc_of_lt hparent
          (lateral_index_lt parent f.path.getLast! x ho hk)⟩

/-- C1, amended. Both constructions yield a focus satisfying the
path-validity invariant, and the invariant is preserved by every sequence
of `jump`/`create_subtree` calls *provided* every node's children count
plus the number of operations still to run stays at most `2^31` (here:
`countsLE` on the initial tree) — this keeps the `usize as i32` cast in
`Jump::Lateral` faithful.  Without the bound the claim is false (see the
counterexample: with `2^32` children the cast wraps and a lateral jump
pushes the invalid index `2^64 - 1`). -/
theorem invariant_preservation {T : Type} :
    (∀ label : T, (Focus.new label).Valid) ∧
    (∀ (t : Tree T) (p? : Option (List Nat)) (f : Focus T),
      Focus.fromTree t p? = some f → f.Valid) ∧
    (∀ (ops : List (Op T)) (f : Focus T), f.Valid →
      f.tree.countsLE ops.length = true →
      ∃ f', applyOps f ops = some f' ∧ f'.Valid) := by
  refine ⟨?_, ?_, ?_⟩
  · intro label
    rw [valid_def]
    exact ⟨Tree.new label, atPath_nil _⟩
  · intro t p? f hf
    cases p? with
    | none =>
      simp only [Focus.fromTree, Focus.at_path, atPath_nil,
        Option.some.injEq] at hf
      subst hf
      rw [valid_def]
      exact ⟨t, atPath_nil t⟩
    | some p =>
      simp only [Focus.fromTree, Focus.at_path] at hf
      cases h : atPath t p with
      | none =>
        rw [h] at hf
        exact Option.noConfusion hf
      | some w =>
        rw [h, Option.some.injEq] at hf
        subst hf
        rw [valid_def]
        exact ⟨w, h⟩
  · intro ops
    induction ops with
    | nil =>
      intro f hv _
      exact ⟨f, rfl, hv⟩
    | cons op ops ih =>
      intro f hv hb
      have hb2 : f.tree.countsLE (ops.length + 1) = true := by
        simpa using hb
      obtain ⟨f1, h1, hv1, hb1⟩ := applyOp_step hv hb2 op
      obtain ⟨f2, h2, hv2⟩ := ih f1 hv1 hb1
      refine ⟨f2, ?_, hv2⟩
      simp only [applyOps, h1]
      exact h2

/-- Witness for the amended C1: the crate docstring scenario, run as an
operation sequence from `Focus::new(0)`, never fails and ends valid. -/
theorem invariant_preservation_witness :
    (applyOps (Focus.new (0 : Nat))
      [Op.cst 1, Op.jmp .up, Op.cst 2, Op.jmp (.lateral (-1)), Op.cst 3]).isSome
      = true := by
  have hc : (Focus.new (0 : Nat)).tree.countsLE 5 = true := by
    rw [countsLE_iff]
    refine ⟨by norm_num [Focus.new, childrenCount_new], ?_⟩
    intro c hmem
    simp [Focus.new, Tree.new] at hmem
  obtain ⟨f2, h1, _⟩ := (@invariant_preservation Nat).2.2
    [Op.cst 1, Op.jmp .up, Op.cst 2, Op.jmp (.lateral (-1)), Op.cst 3]
    (Focus.new 0) (by decide) hc
  rw [h1]
  rfl

/-- C1 counterexample. A successfully constructed focus over a root
with `2^32` children, at path `[0]`; one `Lateral(0)` jump survives, but
the children-count cast `usize as i32` wraps to `0`, the code takes the
`ub - 1` branch and pushes `((-1) as usize) = 2^64 - 1`: the stored path
no longer addresses any node of the stored tree. -/
theorem invariant_cex :
    Focus.fromTree wideTree (some [0]) =
      some { tree := wideTree, path := [0] } ∧
    applyOps { tree := wideTree, path := [0] } [Op.jmp (Jump.lateral 0)] =
      some { tree := wideTree, path := [18446744073709551615] } ∧
    ¬ Focus.Valid { tree := wideTree, path := [18446744073709551615] } := by
  have hchild : (wideTree.children)[0]? = some (Tree.new 0) := by
    show (List.replicate (2 ^ 32) (Tree.new (0 : Nat)))[0]? = some (Tree.new 0)
    rw [List.getElem?_replicate, if_pos (by norm_num)]
  have ha : atPath wideTree [0] = some (Tree.new 0) := by
    rw [atPath_cons, hchild, Option.some_bind, atPath_nil]
  have hk : wideTree.childrenCount = 2 ^ 32 := by
    show (List.replicate (2 ^ 32) (Tree.new (0 : Nat))).length = 2 ^ 32
    exact List.length_replicate _ _
  refine ⟨fromTree_of_atPath ha, ?_, ?_⟩
  · have harith : usizeOfI32 (
        if wrap32 (wrap32 ((0 : Nat) : Int) + 0) < 0 then 0
        else if wrap32 (wrap32 ((0 : Nat) : Int) + 0) ≥
          wrap32 (wideTree.childrenCount : Int)
        then wrap32 (wrap32 (wideTree.childrenCount : Int) - 1)
        else wrap32 (wrap32 ((0 : Nat) : Int) + 0)) = 18446744073709551615 := by
      rw [hk]
      push_cast
      norm_num [wrap32, usizeOfI32]
      decide
    have hjump := @jump_lateral_eq_mk Nat wideTree [0] 0 [] 0 wideTree rfl
      (atPath_nil wideTree)
    rw [harith] at hjump
    exact applyOps_single hjump
  · have hnone : atPath wideTree [18446744073709551615] = none := by
      have hn : (wideTree.children)[18446744073709551615]? = none := by
        show (List.replicate (2 ^ 32)
          (Tree.new (0 : Nat)))[18446744073709551615]? = none
        rw [List.getElem?_replicate, if_neg (by norm_num)]
      rw [atPath_cons, hn, Option.none_bind]
    exact not_valid_of_atPath_none hnone

/-! ### Round-trip of the structural serialization, C10 -/

theorem roundtripTreeList_of {T : Type} (cs : List (Tree T))
    (h : ∀ c ∈ cs, deserializeTree (serializeTree c) = some c) :
    deserializeTreeList (serializeTreeList cs) = some cs := by
  induction cs with
  | nil => simp [serializeTreeList, deserializeTreeList]
  | cons c cs ih =>
    simp only [serializeTreeList, deserializeTreeList,
      h c (List.mem_cons_self c cs),
      ih (fun d hd => h d (List.mem_cons_of_mem c hd))]

theorem roundtripTree_size {T : Type} :
    ∀ (n : Nat) (t : Tree T), sizeOf t ≤ n →
      deserializeTree (serializeTree t) = some t := by
  intro n
  induction n with
  | zero =>
    intro t ht
    obtain ⟨l, cs⟩ := t
    simp only [Tree.mk.sizeOf_spec] at ht
    omega
  | succ n ih =>
    intro t ht
    obtain ⟨l, cs⟩ := t
    have hcs : ∀ c ∈ cs, deserializeTree (serializeTree c) = some c := by
      intro c hc
      refine ih c ?_
      have h1 := List.sizeOf_lt_of_mem hc
      simp only [Tree.mk.sizeOf_spec] at ht
      omega
    simp only [serializeTree, deserializeTree, roundtripTreeList_of cs hcs]

theorem roundtripPath {T : Type} (p : List Nat) :
    @deserializePath T (List.map SVal.num p) = some p := by
  induction p with
  | nil => rfl
  | cons n p ih => simp only [List.map_cons, deserializePath, ih]

/-- C10. Round-trip: deserializing the serialized structural
representation (spec §6) yields a structurally identical instance — same
labels, same child order everywhere, and (for a focus satisfying the
path-validity invariant) the same path; i.e. deserialize ∘ serialize is
the identity on valid instances. -/
theorem roundtrip_spec {T : Type} :
    (∀ t : Tree T, deserializeTree (serializeTree t) = some t) ∧
    (∀ f : Focus T, f.Valid → deserializeFocus (serializeFocus f) = some f) := by
  have htree : ∀ t : Tree T, deserializeTree (serializeTree t) = some t :=
    fun t => roundtripTree_size (sizeOf t) t (Nat.le_refl _)
  refine ⟨htree, ?_⟩
  intro f _
  obtain ⟨t, pa⟩ := f
  simp only [serializeFocus, deserializeFocus, htree t, roundtripPath pa]

/-- Witness for C10 at the one-node focus. -/
theorem roundtrip_spec_witness :
    deserializeFocus (serializeFocus (Focus.new (0 : Nat))) =
      some (Focus.new 0) :=
  (@roundtrip_spec Nat).2 (Focus.new 0) (by decide)

end TT
